import Mathlib

/-!
Verification of the Plutus Data codec and schema predicates of `pkg/blueprint`
(`plutusdata.go`, `schema.go`).

Modelling conventions:
* Go byte slices are `List Nat` with byte values below 256.
* `uint64` arithmetic is `Nat` arithmetic taken modulo `2 ^ 64` at the points
  where the Go code can overflow.
* The Go struct `PlutusData` has five optional variant fields inspected by
  `toCBORBytes` in a fixed precedence order (`Constr`, `Integer`, `ByteString`,
  `List`, `Map`, then a default for the zero value).  The embedding is the
  corresponding sum type, one constructor per `case` of that `switch`, plus
  `unset` for the zero value (the `default` arm).
* `em.Marshal` from `fxamacker/cbor` (with `BigIntConvertShortest`) is only
  applied to `*big.Int` and `[]byte`; for those inputs it is total and emits
  the standard shortest-form CBOR heads modelled by `encUIntHead`, `encBigInt`
  and `encByteStr`.
* `dm.Unmarshal` into `interface{}` (with `BigIntDecodePointer`) is modelled by
  the fuel-indexed parser `parseVal`, producing the `GoCBOR` tree of runtime
  values the library hands to `plutusDataFromCBORValue`.  Indefinite-length
  byte/text strings and text strings in general are outside the subset this
  codec ever touches and parse to `none`.  CBOR maps are kept in wire order in
  the model; the actual Go `map[interface{}]interface{}` loses that order,
  which is why round-trip statements restrict maps to at most one entry.
-/

/-- Big-endian reassembly of a byte sequence into a natural number, as
`big.Int.SetBytes` does. -/
def beNat (bs : List Nat) : Nat :=
  bs.foldl (fun a b => a * 256 + b) 0

/-- Minimal big-endian byte representation of a natural number, as
`big.Int.Bytes` produces (empty for zero, no leading zero bytes). -/
def natToBE (n : Nat) : List Nat :=
  if h : n = 0 then [] else natToBE (n / 256) ++ [n % 256]
decreasing_by exact Nat.div_lt_self (Nat.pos_of_ne_zero h) (by omega)

/-- Shortest-form CBOR head for major type `major` and unsigned argument `v`
(`v < 2 ^ 64`), as emitted by `fxamacker/cbor` for integers and length
prefixes. -/
def encUIntHead (major v : Nat) : List Nat :=
  if v < 24 then [32 * major + v]
  else if v < 256 then [32 * major + 24, v]
  else if v < 65536 then [32 * major + 25, v / 256, v % 256]
  else if v < 4294967296 then
    [32 * major + 26, v / 16777216 % 256, v / 65536 % 256, v / 256 % 256, v % 256]
  else
    [32 * major + 27,
     v / 72057594037927936 % 256, v / 281474976710656 % 256,
     v / 1099511627776 % 256, v / 4294967296 % 256,
     v / 16777216 % 256, v / 65536 % 256, v / 256 % 256, v % 256]

/-- Definite-length CBOR byte string (major type 2), as `em.Marshal` encodes a
`[]byte`. -/
def encByteStr (bs : List Nat) : List Nat :=
  encUIntHead 2 bs.length ++ bs

/-- CBOR encoding of a `*big.Int` under `BigIntConvertShortest`: major type 0/1
for values whose magnitude-encoding fits 64 bits, otherwise a tag 2/3 bignum
with minimal big-endian content. -/
def encBigInt (n : Int) : List Nat :=
  if 0 ≤ n then
    if n < 18446744073709551616 then encUIntHead 0 n.toNat
    else 0xc2 :: encByteStr (natToBE n.toNat)
  else
    if -1 - n < 18446744073709551616 then encUIntHead 1 (-1 - n).toNat
    else 0xc3 :: encByteStr (natToBE (-1 - n).toNat)

/-- The `PlutusData` value algebra of `plutusdata.go`: one constructor per
`case` of the `switch` in `toCBORBytes`, in the same precedence order, with
`unset` for the zero value handled by the `default` arm.  `constr` carries the
`ConstrPlutusData` payload (`Index uint64`, `Fields []PlutusData`), `map`
carries the `PlutusDataMapEntry` list. -/
inductive PlutusData : Type where
  | constr (index : Nat) (fields : List PlutusData)
  | integer (i : Int)
  | byteString (bytes : List Nat)
  | list (items : List PlutusData)
  | map (entries : List (PlutusData × PlutusData))
  | unset

/-- Constructor tag arithmetic of `toCBORBytes`: `121 + index` for
`index <= 6`, otherwise `cborTagConstrBase + index - 7` computed in `uint64`
(so taken modulo `2 ^ 64`; `(1280 + i) - 7` in wrapping arithmetic equals
`(1273 + i) % 2 ^ 64`). -/
def constrTag (index : Nat) : Nat :=
  if index ≤ 6 then 121 + index
  else (1273 + index) % 18446744073709551616

/-- The inline tag-header emission of `toCBORBytes`: single byte `0xc0 + tag`
for `tag < 24`, `0xd8` plus one byte for `tag < 256`, otherwise `0xd9` followed
by `byte(tag >> 8)` and `byte(tag)` (the low 16 bits only). -/
def constrTagHeader (tag : Nat) : List Nat :=
  if tag < 24 then [0xc0 + tag]
  else if tag < 256 then [0xd8, tag]
  else [0xd9, tag / 256 % 256, tag % 256]

mutual
/-- `toCBORBytes` of `plutusdata.go`.  The error channel mirrors the Go
`([]byte, error)` signature; its only sources are `em.Marshal` on `*big.Int`
and `[]byte`, which never fail, so no arm constructs an error. -/
def toCBORBytes : PlutusData → Except String (List Nat)
  | .constr index fields =>
    match toCBORSeq fields with
    | .error e => .error e
    | .ok body =>
      .ok (constrTagHeader (constrTag index) ++
        (if fields.isEmpty then [0x80] else 0x9f :: body ++ [0xff]))
  | .integer i => .ok (encBigInt i)
  | .byteString bs => .ok (encByteStr bs)
  | .list items =>
    match toCBORSeq items with
    | .error e => .error e
    | .ok body => .ok (0x9f :: body ++ [0xff])
  | .map entries =>
    match toCBORPairs entries with
    | .error e => .error e
    | .ok body =>
      .ok (if entries.isEmpty then [0xa0] else 0xbf :: body ++ [0xff])
  | .unset => .ok [0xd8, 0x79, 0x9f, 0xff]

/-- Sequential encoding of the element loops of `toCBORBytes`, stopping at the
first error exactly as the Go loops do. -/
def toCBORSeq : List PlutusData → Except String (List Nat)
  | [] => .ok []
  | x :: xs =>
    match toCBORBytes x with
    | .error e => .error e
    | .ok b =>
      match toCBORSeq xs with
      | .error e => .error e
      | .ok rest => .ok (b ++ rest)

/-- Sequential encoding of the map-entry loop of `toCBORBytes` (key bytes then
value bytes per entry). -/
def toCBORPairs : List (PlutusData × PlutusData) → Except String (List Nat)
  | [] => .ok []
  | (k, v) :: rest =>
    match toCBORBytes k with
    | .error e => .error e
    | .ok kb =>
      match toCBORBytes v with
      | .error e => .error e
      | .ok vb =>
        match toCBORPairs rest with
        | .error e => .error e
        | .ok rb => .ok (kb ++ vb ++ rb)
end

/-- `MarshalCBOR` of `plutusdata.go`: it simply calls `toCBORBytes`. -/
def MarshalCBOR (p : PlutusData) : Except String (List Nat) :=
  toCBORBytes p

/-- `Equals` of `plutusdata.go`: marshal both sides, `false` on any error,
otherwise byte equality. -/
def Equals (p other : PlutusData) : Bool :=
  match toCBORBytes p, toCBORBytes other with
  | .ok a, .ok b => a == b
  | _, _ => false

mutual
/-- Total companion of `toCBORBytes`: the byte sequence it returns (the Go
error channel never fires, see `toCBORBytes_ok`). -/
def encPD : PlutusData → List Nat
  | .constr index fields =>
    constrTagHeader (constrTag index) ++
      (if fields.isEmpty then [0x80] else 0x9f :: encSeq fields ++ [0xff])
  | .integer i => encBigInt i
  | .byteString bs => encByteStr bs
  | .list items => 0x9f :: encSeq items ++ [0xff]
  | .map entries =>
    if entries.isEmpty then [0xa0] else 0xbf :: encPairs entries ++ [0xff]
  | .unset => [0xd8, 0x79, 0x9f, 0xff]

/-- Total companion of `toCBORSeq`. -/
def encSeq : List PlutusData → List Nat
  | [] => []
  | x :: xs => encPD x ++ encSeq xs

/-- Total companion of `toCBORPairs`. -/
def encPairs : List (PlutusData × PlutusData) → List Nat
  | [] => []
  | (k, v) :: rest => encPD k ++ encPD v ++ encPairs rest
end

mutual
/-- Encoding is total: `toCBORBytes` always succeeds, returning `encPD`. -/
theorem toCBORBytes_ok : ∀ p, toCBORBytes p = .ok (encPD p)
  | .constr index fields => by
    rw [toCBORBytes, toCBORSeq_ok fields, encPD]
  | .integer i => by rw [toCBORBytes, encPD]
  | .byteString bs => by rw [toCBORBytes, encPD]
  | .list items => by rw [toCBORBytes, toCBORSeq_ok items, encPD]
  | .map entries => by rw [toCBORBytes, toCBORPairs_ok entries, encPD]
  | .unset => by rw [toCBORBytes, encPD]

theorem toCBORSeq_ok : ∀ l, toCBORSeq l = .ok (encSeq l)
  | [] => by rw [toCBORSeq, encSeq]
  | x :: xs => by
    rw [toCBORSeq, toCBORBytes_ok x, toCBORSeq_ok xs, encSeq]

theorem toCBORPairs_ok : ∀ l, toCBORPairs l = .ok (encPairs l)
  | [] => by rw [toCBORPairs, encPairs]
  | (k, v) :: rest => by
    rw [toCBORPairs, toCBORBytes_ok k, toCBORBytes_ok v, toCBORPairs_ok rest,
      encPairs]
end

/-- The tree of Go runtime values `dm.Unmarshal` produces for `interface{}`
under `BigIntDecodePointer`: `cbor.Tag`, `uint64`, `int64`, `*big.Int`,
`[]byte` (also standing for the hashable `cbor.ByteString` wrapper used for
map keys — `plutusDataFromCBORValue` treats the two identically),
`[]interface{}`, `map[interface{}]interface{}` (entries kept in wire order in
the model), and `nil`. -/
inductive GoCBOR : Type where
  | tag (num : Nat) (content : GoCBOR)
  | u64 (n : Nat)
  | i64 (n : Int)
  | big (n : Int)
  | bytes (bs : List Nat)
  | arr (items : List GoCBOR)
  | map (entries : List (GoCBOR × GoCBOR))
  | null

/-- Typed decode errors, one per distinct error return of `UnmarshalCBOR` and
`plutusDataFromCBORValue`: `fmt.Errorf("unsupported CBOR tag: %d", ...)`,
`errors.New("constructor content is not an array")`,
`fmt.Errorf("unsupported CBOR type: %T", ...)`, and any error surfaced by the
`fxamacker/cbor` library itself. -/
inductive DecodeErr : Type where
  | unsupportedTag (num : Nat)
  | malformedConstructor
  | unsupportedType
  | cborLibError
deriving DecidableEq

/-- Extension bytes of a CBOR head: given the additional-information value
`ai` of the initial byte, read the argument and return it with the remaining
input.  `ai = 31` (indefinite) and reserved values yield `none` here; the
callers that accept indefinite framing check for `ai = 31` first. -/
def readArg (ai : Nat) (bs : List Nat) : Option (Nat × List Nat) :=
  if ai < 24 then some (ai, bs)
  else if ai = 24 then
    match bs with
    | x :: r => some (x, r)
    | _ => none
  else if ai = 25 then
    match bs with
    | x :: y :: r => some (x * 256 + y, r)
    | _ => none
  else if ai = 26 then
    match bs with
    | x :: y :: z :: w :: r => some (((x * 256 + y) * 256 + z) * 256 + w, r)
    | _ => none
  else if ai = 27 then
    match bs with
    | a :: b :: c :: d :: e :: f :: g :: h :: r =>
      some (((((((a * 256 + b) * 256 + c) * 256 + d) * 256 + e) * 256 + f)
        * 256 + g) * 256 + h, r)
    | _ => none
  else none

mutual
/-- Fuel-indexed model of the `fxamacker/cbor` item decoder into
`interface{}`: reads one CBOR data item and returns it with the unconsumed
tail.  Bignum tags 2/3 are folded into `*big.Int` as the library does; any
other tag becomes `cbor.Tag`.  The model includes the decoder's default
input limits, which the `DecOptions` in `UnmarshalCBOR` leaves at their
defaults: `depth` is the current nesting level and every array, map or tag
head pushes one level, rejected once it exceeds `MaxNestedLevels = 32`;
definite-length arrays and maps announcing more than
`MaxArrayElements = 131072` elements (`MaxMapPairs = 131072` pairs) are
rejected at the head, indefinite-length ones once the collected elements
exceed the same bound.  The fuel only bounds recursion depth; every
recursive call strictly decreases it, and callers pass more fuel than any
input's nesting depth can consume. -/
def parseVal : Nat → Nat → List Nat → Option (GoCBOR × List Nat)
  | 0, _, _ => none
  | _ + 1, _, [] => none
  | fuel + 1, depth, b :: bs =>
    if b / 32 = 0 then
      match readArg (b % 32) bs with
      | some (v, r) => some (.u64 v, r)
      | none => none
    else if b / 32 = 1 then
      match readArg (b % 32) bs with
      | some (v, r) =>
        if v < 9223372036854775808 then some (.i64 (-1 - (v : Int)), r)
        else some (.big (-1 - (v : Int)), r)
      | none => none
    else if b / 32 = 2 then
      match readArg (b % 32) bs with
      | some (n, r) =>
        if r.length < n then none else some (.bytes (r.take n), r.drop n)
      | none => none
    else if b / 32 = 4 then
      if 32 < depth + 1 then none
      else if b % 32 = 31 then
        match parseItems fuel (depth + 1) bs with
        | some (items, r) =>
          if 131072 < items.length then none else some (.arr items, r)
        | none => none
      else
        match readArg (b % 32) bs with
        | some (n, r) =>
          if 131072 < n then none
          else
            match parseCount fuel (depth + 1) n r with
            | some (items, r') => some (.arr items, r')
            | none => none
        | none => none
    else if b / 32 = 5 then
      if 32 < depth + 1 then none
      else if b % 32 = 31 then
        match parsePairs fuel (depth + 1) bs with
        | some (entries, r) =>
          if 131072 < entries.length then none else some (.map entries, r)
        | none => none
      else
        match readArg (b % 32) bs with
        | some (n, r) =>
          if 131072 < n then none
          else
            match parsePairsCount fuel (depth + 1) n r with
            | some (entries, r') => some (.map entries, r')
            | none => none
        | none => none
    else if b / 32 = 6 then
      if 32 < depth + 1 then none
      else
        match readArg (b % 32) bs with
        | some (t, r) =>
          match parseVal fuel (depth + 1) r with
          | some (c, r') =>
            if t = 2 then
              match c with
              | .bytes bv => some (.big (beNat bv), r')
              | _ => none
            else if t = 3 then
              match c with
              | .bytes bv => some (.big (-1 - (beNat bv : Int)), r')
              | _ => none
            else some (.tag t c, r')
          | none => none
        | none => none
    else if b = 0xf6 then some (.null, bs)
    else none

/-- Elements of an indefinite-length array, up to the break byte `0xff`. -/
def parseItems : Nat → Nat → List Nat → Option (List GoCBOR × List Nat)
  | 0, _, _ => none
  | _ + 1, _, [] => none
  | fuel + 1, depth, b :: bs =>
    if b = 0xff then some ([], bs)
    else
      match parseVal fuel depth (b :: bs) with
      | some (v, r) =>
        match parseItems fuel depth r with
        | some (vs, r') => some (v :: vs, r')
        | none => none
      | none => none

/-- Exactly `n` elements of a definite-length array. -/
def parseCount : Nat → Nat → Nat → List Nat → Option (List GoCBOR × List Nat)
  | 0, _, _, _ => none
  | _ + 1, _, 0, bs => some ([], bs)
  | fuel + 1, depth, n + 1, bs =>
    match parseVal fuel depth bs with
    | some (v, r) =>
      match parseCount fuel depth n r with
      | some (vs, r') => some (v :: vs, r')
      | none => none
    | none => none

/-- Key/value pairs of an indefinite-length map, up to the break byte. -/
def parsePairs :
    Nat → Nat → List Nat → Option (List (GoCBOR × GoCBOR) × List Nat)
  | 0, _, _ => none
  | _ + 1, _, [] => none
  | fuel + 1, depth, b :: bs =>
    if b = 0xff then some ([], bs)
    else
      match parseVal fuel depth (b :: bs) with
      | some (k, r) =>
        match parseVal fuel depth r with
        | some (v, r') =>
          match parsePairs fuel depth r' with
          | some (ps, r'') => some ((k, v) :: ps, r'')
          | none => none
        | none => none
      | none => none

/-- Exactly `n` key/value pairs of a definite-length map. -/
def parsePairsCount :
    Nat → Nat → Nat → List Nat → Option (List (GoCBOR × GoCBOR) × List Nat)
  | 0, _, _, _ => none
  | _ + 1, _, 0, bs => some ([], bs)
  | fuel + 1, depth, n + 1, bs =>
    match parseVal fuel depth bs with
    | some (k, r) =>
      match parseVal fuel depth r with
      | some (v, r') =>
        match parsePairsCount fuel depth n r' with
        | some (ps, r'') => some ((k, v) :: ps, r'')
        | none => none
      | none => none
    | none => none
end

mutual
/-- `plutusDataFromCBORValue` of `plutusdata.go`: the type `switch` over the
decoded `interface{}` tree.  The `int64`, `uint64` and `*big.Int` cases all
build `Integer`; `[]byte` and `cbor.ByteString` both build `ByteString`
(collapsed into `GoCBOR.bytes`); `nil` builds the unit constructor. -/
def plutusDataFromCBORValue : GoCBOR → Except DecodeErr PlutusData
  | .tag num content =>
    if 121 ≤ num ∧ num ≤ 127 then
      match content with
      | .arr items =>
        match fromCBORList items with
        | .error e => .error e
        | .ok fields => .ok (.constr (num - 121) fields)
      | _ => .error .malformedConstructor
    else if 1280 ≤ num then
      match content with
      | .arr items =>
        match fromCBORList items with
        | .error e => .error e
        | .ok fields => .ok (.constr (num - 1280 + 7) fields)
      | _ => .error .malformedConstructor
    else .error (.unsupportedTag num)
  | .big n => .ok (.integer n)
  | .i64 n => .ok (.integer n)
  | .u64 n => .ok (.integer n)
  | .bytes bs => .ok (.byteString bs)
  | .arr items =>
    match fromCBORList items with
    | .error e => .error e
    | .ok xs => .ok (.list xs)
  | .map entries =>
    match fromCBORPairs entries with
    | .error e => .error e
    | .ok es => .ok (.map es)
  | .null => .ok (.constr 0 [])

/-- The element loops of `plutusDataFromCBORValue` over array content,
stopping at the first error. -/
def fromCBORList : List GoCBOR → Except DecodeErr (List PlutusData)
  | [] => .ok []
  | x :: xs =>
    match plutusDataFromCBORValue x with
    | .error e => .error e
    | .ok v =>
      match fromCBORList xs with
      | .error e => .error e
      | .ok vs => .ok (v :: vs)

/-- The map-entry loop of `plutusDataFromCBORValue` (key, then value). -/
def fromCBORPairs :
    List (GoCBOR × GoCBOR) → Except DecodeErr (List (PlutusData × PlutusData))
  | [] => .ok []
  | (k, v) :: rest =>
    match plutusDataFromCBORValue k with
    | .error e => .error e
    | .ok kd =>
      match plutusDataFromCBORValue v with
      | .error e => .error e
      | .ok vd =>
        match fromCBORPairs rest with
        | .error e => .error e
        | .ok es => .ok ((kd, vd) :: es)
end

/-- `UnmarshalCBOR` of `plutusdata.go`: decode the bytes with the library —
at nesting depth 0 and under the library's default input limits, since
`cbor.DecOptions{BigIntDec: cbor.BigIntDecodePointer}` leaves
`MaxNestedLevels`, `MaxArrayElements` and `MaxMapPairs` at their defaults —
requiring one complete item with no trailing data, then convert with
`plutusDataFromCBORValue`.  The fuel `2 * data.length + 2` exceeds the
recursion depth any input of that length can force, so it never cuts off a
parse the library decoder would complete. -/
def UnmarshalCBOR (data : List Nat) : Except DecodeErr PlutusData :=
  match parseVal (2 * data.length + 2) 0 data with
  | some (raw, []) => plutusDataFromCBORValue raw
  | some (_, _ :: _) => .error .cborLibError
  | none => .error .cborLibError

mutual
/-- The `GoCBOR` tree the library decoder produces from `encPD v`: the proof
device describing the intermediate `interface{}` value of a round trip. -/
def reflect : PlutusData → GoCBOR
  | .constr i fs => .tag (constrTag i) (.arr (reflectList fs))
  | .integer n =>
    if 0 ≤ n then
      if n < 18446744073709551616 then .u64 n.toNat else .big n
    else
      if -1 - n < 9223372036854775808 then .i64 n else .big n
  | .byteString bs => .bytes bs
  | .list items => .arr (reflectList items)
  | .map entries => .map (reflectPairs entries)
  | .unset => .tag 121 (.arr [])

def reflectList : List PlutusData → List GoCBOR
  | [] => []
  | x :: xs => reflect x :: reflectList xs

def reflectPairs : List (PlutusData × PlutusData) → List (GoCBOR × GoCBOR)
  | [] => []
  | (k, v) :: rest => (reflect k, reflect v) :: reflectPairs rest
end

/-- Keys that decode through hashable Go types (`int64`/`uint64`/`*big.Int`
pointers, `cbor.ByteString`); list/map/constructor keys are unhashable as
`interface{}` map keys and fail inside the library. -/
def isScalarKey : PlutusData → Bool
  | .integer _ => true
  | .byteString _ => true
  | _ => false

mutual
/-- Values for which the full encode/decode round trip is deterministic in
Go: exactly one variant set, constructor indexes small enough that the
two-byte tag header is not truncated (`tag < 2 ^ 16`, i.e. `index ≤ 64262`),
byte strings made of bytes with realistic slice lengths, lists and
constructor field lists within the decoder's default
`MaxArrayElements = 131072` bound, and maps with at most one entry (Go map
iteration order is unspecified, so larger maps decode in nondeterministic
entry order) whose keys are hashable scalars. -/
def wellFormed : PlutusData → Bool
  | .constr i fs =>
    decide (i ≤ 64262) && decide (fs.length ≤ 131072) && wfList fs
  | .integer n =>
    decide ((natToBE (if 0 ≤ n then n.toNat else (-1 - n).toNat)).length
      < 18446744073709551616)
  | .byteString bs =>
    bs.all (fun b => decide (b < 256)) &&
      decide (bs.length < 18446744073709551616)
  | .list items => decide (items.length ≤ 131072) && wfList items
  | .map entries => decide (entries.length ≤ 1) && wfPairs entries
  | .unset => false

def wfList : List PlutusData → Bool
  | [] => true
  | x :: xs => wellFormed x && wfList xs

def wfPairs : List (PlutusData × PlutusData) → Bool
  | [] => true
  | (k, v) :: rest => isScalarKey k && wellFormed k && wellFormed v && wfPairs rest
end

mutual
/-- Fuel sufficient for `parseVal` to consume `encPD v` (an upper bound on
the recursion depth of the parse). -/
def fuelNeed : PlutusData → Nat
  | .constr _ fs => if fs.isEmpty then 3 else 2 + seqNeed fs
  | .integer _ => 2
  | .byteString _ => 1
  | .list items => 1 + seqNeed items
  | .map entries => if entries.isEmpty then 2 else 1 + pairNeed entries
  | .unset => 3

def seqNeed : List PlutusData → Nat
  | [] => 1
  | x :: xs => 1 + max (fuelNeed x) (seqNeed xs)

def pairNeed : List (PlutusData × PlutusData) → Nat
  | [] => 1
  | (k, v) :: rest => 1 + max (fuelNeed k) (max (fuelNeed v) (pairNeed rest))
end

mutual
/-- CBOR nesting levels of a value's encoding, as the library decoder counts
them: each array, map or tag head is one level, so a constructor costs two
(its tag plus its field array), a list or map one, a bignum integer one (the
tag over the byte string), and small integers and byte strings none.  The
decoder rejects inputs nested beyond `MaxNestedLevels = 32`. -/
def nestDepth : PlutusData → Nat
  | .constr _ fs => 2 + seqND fs
  | .integer n =>
    if -18446744073709551616 ≤ n ∧ n < 18446744073709551616 then 0 else 1
  | .byteString _ => 0
  | .list items => 1 + seqND items
  | .map entries => 1 + pairND entries
  | .unset => 2

def seqND : List PlutusData → Nat
  | [] => 0
  | x :: xs => max (nestDepth x) (seqND xs)

def pairND : List (PlutusData × PlutusData) → Nat
  | [] => 0
  | (k, v) :: rest => max (nestDepth k) (max (nestDepth v) (pairND rest))
end

theorem reflectList_length : ∀ l : List PlutusData,
    (reflectList l).length = l.length
  | [] => by rw [reflectList]; rfl
  | x :: xs => by
    rw [reflectList, List.length_cons, List.length_cons,
      reflectList_length xs]

theorem reflectPairs_length : ∀ l : List (PlutusData × PlutusData),
    (reflectPairs l).length = l.length
  | [] => by rw [reflectPairs]; rfl
  | (k, v) :: es => by
    rw [reflectPairs, List.length_cons, List.length_cons,
      reflectPairs_length es]


theorem encUIntHead_length_pos (m v : Nat) : 1 ≤ (encUIntHead m v).length := by
  unfold encUIntHead
  split_ifs <;> simp

theorem constrTagHeader_length_pos (t : Nat) : 1 ≤ (constrTagHeader t).length := by
  unfold constrTagHeader
  split_ifs <;> simp

theorem encPD_length_pos : ∀ v, 1 ≤ (encPD v).length := by
  intro v
  cases v
  case constr i fs =>
    rw [encPD]
    have := constrTagHeader_length_pos (constrTag i)
    simp only [List.length_append]
    omega
  case integer i =>
    rw [encPD]
    unfold encBigInt
    have h0 := encUIntHead_length_pos 0 i.toNat
    have h1 := encUIntHead_length_pos 1 (-1 - i).toNat
    split_ifs <;> simp <;> omega
  case byteString bs =>
    rw [encPD]
    unfold encByteStr
    have := encUIntHead_length_pos 2 bs.length
    simp only [List.length_append]
    omega
  case list items => rw [encPD]; simp
  case map entries =>
    rw [encPD]
    split <;> simp
  case unset => rw [encPD]; simp

mutual
theorem fuelNeed_le : ∀ v, fuelNeed v ≤ 2 * (encPD v).length
  | .constr i fs => by
    rw [fuelNeed, encPD]
    have h1 := constrTagHeader_length_pos (constrTag i)
    have h2 := seqNeed_le fs
    cases h : fs.isEmpty <;>
      simp only [h, if_true, if_false, Bool.false_eq_true,
        List.length_append, List.length_cons, List.length_nil] <;> omega
  | .integer n => by
    rw [fuelNeed]
    have := encPD_length_pos (.integer n)
    omega
  | .byteString bs => by
    rw [fuelNeed]
    have := encPD_length_pos (.byteString bs)
    omega
  | .list items => by
    rw [fuelNeed, encPD]
    have h2 := seqNeed_le items
    simp only [List.length_cons, List.length_append, List.length_nil]
    omega
  | .map entries => by
    rw [fuelNeed, encPD]
    have h2 := pairNeed_le entries
    cases h : entries.isEmpty <;>
      simp only [h, if_true, if_false, Bool.false_eq_true,
        List.length_cons, List.length_append, List.length_nil] <;> omega
  | .unset => by rw [fuelNeed, encPD]; simp

theorem seqNeed_le : ∀ l, seqNeed l ≤ 2 * (encSeq l).length + 1
  | [] => by rw [seqNeed, encSeq]; simp
  | x :: xs => by
    rw [seqNeed, encSeq]
    have h1 := fuelNeed_le x
    have h2 := seqNeed_le xs
    have h3 := encPD_length_pos x
    simp only [List.length_append]
    omega

theorem pairNeed_le : ∀ l, pairNeed l ≤ 2 * (encPairs l).length + 1
  | [] => by rw [pairNeed, encPairs]; simp
  | (k, v) :: rest => by
    rw [pairNeed, encPairs]
    have h1 := fuelNeed_le k
    have h2 := fuelNeed_le v
    have h3 := pairNeed_le rest
    have h4 := encPD_length_pos k
    simp only [List.length_append]
    omega
end

/-- Round-trip of the CBOR head: the bytes `encUIntHead m v` begin with a
byte of major type `m` whose additional information is below 31, and
`readArg` recovers `v` exactly, leaving the rest untouched. -/
theorem encUIntHead_readArg (m v : Nat) (hm : m ≤ 7)
    (hv : v < 18446744073709551616) (rest : List Nat) :
    ∃ b bs, encUIntHead m v ++ rest = b :: bs ∧ b / 32 = m ∧ b % 32 < 31 ∧
      readArg (b % 32) bs = some (v, rest) := by
  unfold encUIntHead
  split_ifs with h1 h2 h3 h4
  · refine ⟨32 * m + v, rest, by simp, by omega, by omega, ?_⟩
    have hai : (32 * m + v) % 32 = v := by omega
    rw [hai]
    simp [readArg, h1]
  · refine ⟨32 * m + 24, v :: rest, by simp, by omega, by omega, ?_⟩
    have hai : (32 * m + 24) % 32 = 24 := by omega
    rw [hai]
    simp [readArg]
  · refine ⟨32 * m + 25, v / 256 :: v % 256 :: rest, by simp, by omega,
      by omega, ?_⟩
    have hai : (32 * m + 25) % 32 = 25 := by omega
    rw [hai]
    simp [readArg] <;> omega
  · refine ⟨32 * m + 26,
      v / 16777216 % 256 :: v / 65536 % 256 :: v / 256 % 256 :: v % 256
        :: rest, by simp, by omega, by omega, ?_⟩
    have hai : (32 * m + 26) % 32 = 26 := by omega
    rw [hai]
    simp [readArg] <;> omega
  · refine ⟨32 * m + 27,
      v / 72057594037927936 % 256 :: v / 281474976710656 % 256 ::
      v / 1099511627776 % 256 :: v / 4294967296 % 256 ::
      v / 16777216 % 256 :: v / 65536 % 256 :: v / 256 % 256 :: v % 256
        :: rest, by simp, by omega, by omega, ?_⟩
    have hai : (32 * m + 27) % 32 = 27 := by omega
    rw [hai]
    simp [readArg] <;> omega

theorem beNat_append (xs : List Nat) (b : Nat) :
    beNat (xs ++ [b]) = beNat xs * 256 + b := by
  simp [beNat, List.foldl_append]

theorem beNat_natToBE (n : Nat) : beNat (natToBE n) = n := by
  induction n using Nat.strong_induction_on with
  | _ n ih =>
    rw [natToBE]
    split_ifs with h
    · simp [beNat, h]
    · rw [beNat_append, ih (n / 256) (Nat.div_lt_self (Nat.pos_of_ne_zero h)
        (by omega))]
      omega

theorem parseVal_step0 (fuel depth b : Nat) (bs : List Nat) (v : Nat)
    (r : List Nat)
    (hdiv : b / 32 = 0) (hread : readArg (b % 32) bs = some (v, r)) :
    parseVal (fuel + 1) depth (b :: bs) = some (.u64 v, r) := by
  simp only [parseVal, hdiv, hread]
  norm_num

theorem parseVal_step1 (fuel depth b : Nat) (bs : List Nat) (v : Nat)
    (r : List Nat)
    (hdiv : b / 32 = 1) (hread : readArg (b % 32) bs = some (v, r)) :
    parseVal (fuel + 1) depth (b :: bs) =
      if v < 9223372036854775808 then some (.i64 (-1 - (v : Int)), r)
      else some (.big (-1 - (v : Int)), r) := by
  simp only [parseVal, hdiv, hread]
  norm_num

theorem parseVal_encByteStr (fuel depth : Nat) (bs rest : List Nat)
    (hlen : bs.length < 18446744073709551616) :
    parseVal (fuel + 1) depth (encByteStr bs ++ rest) =
      some (.bytes bs, rest) := by
  obtain ⟨b, tl, heq, hdiv, _, hread⟩ :=
    encUIntHead_readArg 2 bs.length (by omega) hlen (bs ++ rest)
  rw [encByteStr, List.append_assoc, heq]
  simp only [parseVal, hdiv, hread]
  rw [if_pos trivial]
  rw [if_neg (show ¬((bs ++ rest).length < bs.length) by
    simp only [List.length_append]; omega)]
  simp [List.take_left, List.drop_left]

theorem parseVal_step4_indef (fuel depth : Nat) (bs : List Nat)
    (items : List GoCBOR) (r : List Nat)
    (hdepth : depth + 1 ≤ 32)
    (hitems : parseItems fuel (depth + 1) bs = some (items, r))
    (hlen : items.length ≤ 131072) :
    parseVal (fuel + 1) depth (0x9f :: bs) = some (.arr items, r) := by
  simp only [parseVal, hitems, if_neg (show ¬ 32 < depth + 1 by omega),
    if_neg (show ¬ 131072 < items.length by omega)]
  norm_num

theorem parseVal_step4_def (fuel depth b : Nat) (bs : List Nat) (n : Nat)
    (r : List Nat) (items : List GoCBOR) (r' : List Nat)
    (hdiv : b / 32 = 4) (hai : b % 32 ≠ 31)
    (hdepth : depth + 1 ≤ 32) (hn : n ≤ 131072)
    (hread : readArg (b % 32) bs = some (n, r))
    (hcount : parseCount fuel (depth + 1) n r = some (items, r')) :
    parseVal (fuel + 1) depth (b :: bs) = some (.arr items, r') := by
  simp only [parseVal, hdiv, hread, hcount, if_neg hai,
    if_neg (show ¬ 32 < depth + 1 by omega),
    if_neg (show ¬ 131072 < n by omega)]
  norm_num

theorem parseVal_step5_indef (fuel depth : Nat) (bs : List Nat)
    (entries : List (GoCBOR × GoCBOR)) (r : List Nat)
    (hdepth : depth + 1 ≤ 32)
    (hentries : parsePairs fuel (depth + 1) bs = some (entries, r))
    (hlen : entries.length ≤ 131072) :
    parseVal (fuel + 1) depth (0xbf :: bs) = some (.map entries, r) := by
  simp only [parseVal, hentries, if_neg (show ¬ 32 < depth + 1 by omega),
    if_neg (show ¬ 131072 < entries.length by omega)]
  norm_num

theorem parseVal_step5_def (fuel depth b : Nat) (bs : List Nat) (n : Nat)
    (r : List Nat) (entries : List (GoCBOR × GoCBOR)) (r' : List Nat)
    (hdiv : b / 32 = 5) (hai : b % 32 ≠ 31)
    (hdepth : depth + 1 ≤ 32) (hn : n ≤ 131072)
    (hread : readArg (b % 32) bs = some (n, r))
    (hcount : parsePairsCount fuel (depth + 1) n r = some (entries, r')) :
    parseVal (fuel + 1) depth (b :: bs) = some (.map entries, r') := by
  simp only [parseVal, hdiv, hread, hcount, if_neg hai,
    if_neg (show ¬ 32 < depth + 1 by omega),
    if_neg (show ¬ 131072 < n by omega)]
  norm_num

theorem parseVal_step6 (fuel depth b : Nat) (bs : List Nat) (t : Nat)
    (r : List Nat) (c : GoCBOR) (r' : List Nat)
    (hdiv : b / 32 = 6) (hread : readArg (b % 32) bs = some (t, r))
    (hdepth : depth + 1 ≤ 32)
    (hparse : parseVal fuel (depth + 1) r = some (c, r'))
    (ht2 : t ≠ 2) (ht3 : t ≠ 3) :
    parseVal (fuel + 1) depth (b :: bs) = some (.tag t c, r') := by
  simp only [parseVal, hdiv, hread, hparse, if_neg ht2, if_neg ht3,
    if_neg (show ¬ 32 < depth + 1 by omega)]
  norm_num

theorem parseVal_step6_big2 (fuel depth b : Nat) (bs : List Nat)
    (r : List Nat) (bv : List Nat) (r' : List Nat)
    (hdiv : b / 32 = 6) (hread : readArg (b % 32) bs = some (2, r))
    (hdepth : depth + 1 ≤ 32)
    (hparse : parseVal fuel (depth + 1) r = some (.bytes bv, r')) :
    parseVal (fuel + 1) depth (b :: bs) = some (.big (beNat bv), r') := by
  simp only [parseVal, hdiv, hread, hparse,
    if_neg (show ¬ 32 < depth + 1 by omega)]
  norm_num

theorem parseVal_step6_big3 (fuel depth b : Nat) (bs : List Nat)
    (r : List Nat) (bv : List Nat) (r' : List Nat)
    (hdiv : b / 32 = 6) (hread : readArg (b % 32) bs = some (3, r))
    (hdepth : depth + 1 ≤ 32)
    (hparse : parseVal fuel (depth + 1) r = some (.bytes bv, r')) :
    parseVal (fuel + 1) depth (b :: bs) =
      some (.big (-1 - (beNat bv : Int)), r') := by
  simp only [parseVal, hdiv, hread, hparse,
    if_neg (show ¬ 32 < depth + 1 by omega)]
  norm_num

theorem encUIntHead_head (m v : Nat) (hm : m ≤ 2) :
    ∃ b t, encUIntHead m v = b :: t ∧ b < 246 := by
  unfold encUIntHead
  split_ifs with h1 h2 h3 h4
  · exact ⟨32 * m + v, [], rfl, by omega⟩
  · exact ⟨32 * m + 24, [v], rfl, by omega⟩
  · exact ⟨32 * m + 25, _, rfl, by omega⟩
  · exact ⟨32 * m + 26, _, rfl, by omega⟩
  · exact ⟨32 * m + 27, _, rfl, by omega⟩

/-- Every encoding starts with a byte below `0xf6`: no encoding is the CBOR
`null` byte and no encoding starts with a break byte. -/
theorem encPD_head_lt : ∀ v, ∃ b t, encPD v = b :: t ∧ b < 246 := by
  intro v
  cases v
  case constr i fs =>
    rw [encPD]
    unfold constrTagHeader
    split_ifs with h1 h2 <;> exact ⟨_, _, rfl, by omega⟩
  case integer n =>
    rw [encPD]
    unfold encBigInt
    split_ifs with h1 h2 h3
    · obtain ⟨b, t, heq, hb⟩ := encUIntHead_head 0 n.toNat (by omega)
      exact ⟨b, t, heq, hb⟩
    · exact ⟨0xc2, _, rfl, by omega⟩
    · obtain ⟨b, t, heq, hb⟩ := encUIntHead_head 1 (-1 - n).toNat (by omega)
      exact ⟨b, t, heq, hb⟩
    · exact ⟨0xc3, _, rfl, by omega⟩
  case byteString bs =>
    rw [encPD]
    unfold encByteStr
    obtain ⟨b, t, heq, hb⟩ := encUIntHead_head 2 bs.length (by omega)
    exact ⟨b, t ++ bs, by rw [heq]; rfl, hb⟩
  case list items =>
    rw [encPD]
    exact ⟨_, _, rfl, by omega⟩
  case map entries =>
    rw [encPD]
    by_cases h : entries.isEmpty
    · rw [if_pos h]
      exact ⟨_, _, rfl, by omega⟩
    · rw [if_neg h]
      exact ⟨_, _, rfl, by omega⟩
  case unset =>
    rw [encPD]
    exact ⟨_, _, rfl, by omega⟩

theorem constrTag_eq (i : Nat) (h : i ≤ 64262) :
    constrTag i = if i ≤ 6 then 121 + i else 1273 + i := by
  unfold constrTag
  split_ifs
  · rfl
  · exact Nat.mod_eq_of_lt (by omega)

theorem constrTag_range (i : Nat) (h : i ≤ 64262) :
    121 ≤ constrTag i ∧ constrTag i ≤ 65535 := by
  rw [constrTag_eq i h]
  split_ifs <;> omega

/-- The inline tag header parses back to the tag it was computed from, as long
as the tag fits the two-byte form. -/
theorem constrTagHeader_parse (t : Nat) (h121 : 121 ≤ t) (h65535 : t ≤ 65535)
    (body : List Nat) :
    ∃ b tl, constrTagHeader t ++ body = b :: tl ∧ b / 32 = 6 ∧
      readArg (b % 32) tl = some (t, body) := by
  unfold constrTagHeader
  split_ifs with ha hb
  · omega
  · refine ⟨0xd8, t :: body, by simp, by norm_num, ?_⟩
    simp [readArg]
  · refine ⟨0xd9, t / 256 % 256 :: t % 256 :: body, by simp, by norm_num, ?_⟩
    simp [readArg]
    omega

mutual
/-- Soundness of encoding against the library decoder: parsing the bytes of a
well-formed value whose nesting fits the remaining depth budget yields
exactly the `GoCBOR` tree `reflect v`, consuming nothing beyond the
encoding. -/
theorem parse_enc : ∀ (fuel depth : Nat) (v : PlutusData) (rest : List Nat),
    wellFormed v = true → fuelNeed v ≤ fuel → nestDepth v + depth ≤ 32 →
    parseVal fuel depth (encPD v ++ rest) = some (reflect v, rest)
  | fuel, depth, .constr i fs, rest => fun hwf hfuel hd => by
    rw [wellFormed, Bool.and_eq_true, Bool.and_eq_true, decide_eq_true_eq,
      decide_eq_true_eq] at hwf
    obtain ⟨⟨hi, hflen⟩, hfs⟩ := hwf
    rw [nestDepth] at hd
    obtain ⟨ht1, ht2⟩ := constrTag_range i hi
    rw [encPD, reflect]
    cases fs with
    | nil =>
      rw [fuelNeed] at hfuel
      rw [seqND] at hd
      simp only [List.isEmpty_nil, if_true, eq_self_iff_true] at hfuel ⊢
      obtain ⟨H, rfl⟩ : ∃ H, fuel = H + 3 := ⟨fuel - 3, by omega⟩
      obtain ⟨b, tl, heq, hdiv, hread⟩ :=
        constrTagHeader_parse (constrTag i) ht1 ht2 (128 :: rest)
      have hcount : parseCount (H + 1) (depth + 2) 0 rest =
          some ([], rest) := by
        simp [parseCount]
      have hinner : parseVal (H + 2) (depth + 1) (128 :: rest) =
          some (.arr [], rest) :=
        parseVal_step4_def (H + 1) (depth + 1) 128 rest 0 rest [] rest
          (by norm_num) (by norm_num) (by omega) (by norm_num)
          (by norm_num [readArg]) hcount
      rw [List.append_assoc, List.singleton_append, heq, reflectList]
      exact parseVal_step6 (H + 2) depth b tl (constrTag i) (128 :: rest)
        (.arr []) rest hdiv hread (by omega) hinner (by omega) (by omega)
    | cons x xs =>
      rw [fuelNeed] at hfuel
      simp only [List.isEmpty_cons, Bool.false_eq_true, if_false] at hfuel ⊢
      obtain ⟨F, rfl⟩ : ∃ F, fuel = F + 2 := ⟨fuel - 2, by omega⟩
      obtain ⟨b, tl, heq, hdiv, hread⟩ :=
        constrTagHeader_parse (constrTag i) ht1 ht2
          (0x9f :: (encSeq (x :: xs) ++ 255 :: rest))
      have hitems : parseItems F (depth + 2)
          (encSeq (x :: xs) ++ 255 :: rest) =
          some (reflectList (x :: xs), rest) :=
        parseItems_enc F (depth + 2) (x :: xs) rest hfs (by omega) (by omega)
      have hinner := parseVal_step4_indef F (depth + 1) _ _ _ (by omega)
        hitems (by rw [reflectList_length]; omega)
      simp only [List.cons_append, List.append_assoc, List.singleton_append, List.nil_append]
      rw [heq]
      exact parseVal_step6 (F + 1) depth b tl (constrTag i) _ _ rest hdiv
        hread (by omega) hinner (by omega) (by omega)
  | fuel, depth, .integer n, rest => fun hwf hfuel hd => by
    rw [fuelNeed] at hfuel
    obtain ⟨F, rfl⟩ : ∃ F, fuel = F + 1 := ⟨fuel - 1, by omega⟩
    rw [wellFormed, decide_eq_true_eq] at hwf
    rw [nestDepth] at hd
    rw [encPD, encBigInt, reflect]
    by_cases hpos : 0 ≤ n
    · rw [if_pos hpos] at hwf
      rw [if_pos hpos, if_pos hpos]
      by_cases hsmall : n < 18446744073709551616
      · rw [if_pos hsmall, if_pos hsmall]
        obtain ⟨b, bs, heq, hdiv, _, hread⟩ :=
          encUIntHead_readArg 0 n.toNat (by omega) (by omega) rest
        rw [heq]
        exact parseVal_step0 F depth b bs n.toNat rest hdiv hread
      · rw [if_neg hsmall, if_neg hsmall]
        rw [if_neg (show ¬ (-18446744073709551616 ≤ n ∧
          n < 18446744073709551616) by omega)] at hd
        obtain ⟨G, rfl⟩ : ∃ G, F = G + 1 := ⟨F - 1, by omega⟩
        have hbytes := parseVal_encByteStr G (depth + 1)
          (natToBE n.toNat) rest hwf
        have hstep := parseVal_step6_big2 (G + 1) depth 0xc2
          (encByteStr (natToBE n.toNat) ++ rest) _ _ rest (by norm_num)
          (by norm_num [readArg]) (by omega) hbytes
        rw [beNat_natToBE, Int.toNat_of_nonneg hpos] at hstep
        rw [List.cons_append]
        exact hstep
    · rw [if_neg hpos] at hwf
      rw [if_neg hpos, if_neg hpos]
      by_cases hm : -1 - n < 18446744073709551616
      · rw [if_pos hm]
        obtain ⟨b, bs, heq, hdiv, _, hread⟩ :=
          encUIntHead_readArg 1 (-1 - n).toNat (by omega) (by omega) rest
        rw [heq, parseVal_step1 F depth b bs (-1 - n).toNat rest hdiv hread]
        by_cases hsm : -1 - n < 9223372036854775808
        · rw [if_pos (show (-1 - n).toNat < 9223372036854775808 by omega),
            if_pos hsm]
          simp only [Option.some.injEq, Prod.mk.injEq, GoCBOR.i64.injEq,
            and_true]
          omega
        · rw [if_neg (show ¬ (-1 - n).toNat < 9223372036854775808 by omega),
            if_neg hsm]
          simp only [Option.some.injEq, Prod.mk.injEq, GoCBOR.big.injEq,
            and_true]
          omega
      · rw [if_neg hm, if_neg (show ¬ (-1 - n) < 9223372036854775808 by omega)]
        rw [if_neg (show ¬ (-18446744073709551616 ≤ n ∧
          n < 18446744073709551616) by omega)] at hd
        obtain ⟨G, rfl⟩ : ∃ G, F = G + 1 := ⟨F - 1, by omega⟩
        have hbytes := parseVal_encByteStr G (depth + 1)
          (natToBE (-1 - n).toNat) rest hwf
        have hstep := parseVal_step6_big3 (G + 1) depth 0xc3
          (encByteStr (natToBE (-1 - n).toNat) ++ rest) _ _ rest (by norm_num)
          (by norm_num [readArg]) (by omega) hbytes
        rw [beNat_natToBE] at hstep
        rw [List.cons_append, hstep]
        simp only [Option.some.injEq, Prod.mk.injEq, GoCBOR.big.injEq,
          and_true]
        omega
  | fuel, depth, .byteString bs, rest => fun hwf hfuel _ => by
    rw [fuelNeed] at hfuel
    obtain ⟨F, rfl⟩ : ∃ F, fuel = F + 1 := ⟨fuel - 1, by omega⟩
    rw [wellFormed, Bool.and_eq_true, decide_eq_true_eq] at hwf
    rw [encPD, reflect]
    exact parseVal_encByteStr F depth bs rest hwf.2
  | fuel, depth, .list items, rest => fun hwf hfuel hd => by
    rw [fuelNeed] at hfuel
    obtain ⟨F, rfl⟩ : ∃ F, fuel = F + 1 := ⟨fuel - 1, by omega⟩
    rw [wellFormed, Bool.and_eq_true, decide_eq_true_eq] at hwf
    obtain ⟨hil, hwl⟩ := hwf
    rw [nestDepth] at hd
    rw [encPD, reflect]
    simp only [List.cons_append, List.append_assoc, List.singleton_append, List.nil_append]
    exact parseVal_step4_indef F depth _ _ _ (by omega)
      (parseItems_enc F (depth + 1) items rest hwl (by omega) (by omega))
      (by rw [reflectList_length]; omega)
  | fuel, depth, .map entries, rest => fun hwf hfuel hd => by
    rw [wellFormed, Bool.and_eq_true, decide_eq_true_eq] at hwf
    rw [nestDepth] at hd
    rw [encPD, reflect]
    cases entries with
    | nil =>
      rw [fuelNeed] at hfuel
      rw [pairND] at hd
      simp only [List.isEmpty_nil, if_true, eq_self_iff_true] at hfuel ⊢
      obtain ⟨G, rfl⟩ : ∃ G, fuel = G + 2 := ⟨fuel - 2, by omega⟩
      have hcount : parsePairsCount (G + 1) (depth + 1) 0 rest =
          some ([], rest) := by
        simp [parsePairsCount]
      rw [List.singleton_append, reflectPairs]
      exact parseVal_step5_def (G + 1) depth 0xa0 rest 0 rest [] rest
        (by norm_num) (by norm_num) (by omega) (by norm_num)
        (by norm_num [readArg]) hcount
    | cons e es =>
      rw [fuelNeed] at hfuel
      simp only [List.isEmpty_cons, Bool.false_eq_true, if_false] at hfuel ⊢
      obtain ⟨F, rfl⟩ : ∃ F, fuel = F + 1 := ⟨fuel - 1, by omega⟩
      simp only [List.cons_append, List.append_assoc, List.singleton_append, List.nil_append]
      exact parseVal_step5_indef F depth _ _ _ (by omega)
        (parsePairs_enc F (depth + 1) (e :: es) rest hwf.2 (by omega)
          (by omega))
        (by rw [reflectPairs_length]; have := hwf.1; omega)
  | fuel, depth, .unset, rest => fun hwf _ _ => by
    rw [wellFormed] at hwf
    exact absurd hwf (by simp)
termination_by fuel depth v rest => fuel

/-- Indefinite-array element soundness: the concatenated encodings of a
well-formed list followed by a break parse to the reflected elements. -/
theorem parseItems_enc : ∀ (fuel depth : Nat) (l : List PlutusData)
    (rest : List Nat), wfList l = true → seqNeed l ≤ fuel →
    seqND l + depth ≤ 32 →
    parseItems fuel depth (encSeq l ++ 255 :: rest) =
      some (reflectList l, rest)
  | fuel, depth, [], rest => fun _ hfuel _ => by
    rw [seqNeed] at hfuel
    obtain ⟨F, rfl⟩ : ∃ F, fuel = F + 1 := ⟨fuel - 1, by omega⟩
    rw [encSeq, reflectList, List.nil_append]
    simp [parseItems]
  | fuel, depth, x :: xs, rest => fun hwf hfuel hd => by
    rw [wfList, Bool.and_eq_true] at hwf
    rw [seqNeed] at hfuel
    rw [seqND] at hd
    obtain ⟨F, rfl⟩ : ∃ F, fuel = F + 1 := ⟨fuel - 1, by omega⟩
    rw [encSeq, reflectList, List.append_assoc]
    obtain ⟨b, t, hx, hb⟩ := encPD_head_lt x
    rw [hx, List.cons_append]
    simp only [parseItems]
    rw [if_neg (show ¬ b = 255 by omega), ← List.cons_append, ← hx,
      parse_enc F depth x (encSeq xs ++ 255 :: rest) hwf.1 (by omega)
        (by omega)]
    dsimp only
    rw [parseItems_enc F depth xs rest hwf.2 (by omega) (by omega)]
termination_by fuel depth l rest => fuel

/-- Definite-array element soundness: with the element count given up front,
the same element encodings parse to the same reflected elements. -/
theorem parseCount_enc : ∀ (fuel depth : Nat) (l : List PlutusData)
    (rest : List Nat), wfList l = true → seqNeed l ≤ fuel →
    seqND l + depth ≤ 32 →
    parseCount fuel depth l.length (encSeq l ++ rest) =
      some (reflectList l, rest)
  | fuel, depth, [], rest => fun _ hfuel _ => by
    rw [seqNeed] at hfuel
    obtain ⟨F, rfl⟩ : ∃ F, fuel = F + 1 := ⟨fuel - 1, by omega⟩
    rw [encSeq, reflectList, List.nil_append, List.length_nil]
    simp [parseCount]
  | fuel, depth, x :: xs, rest => fun hwf hfuel hd => by
    rw [wfList, Bool.and_eq_true] at hwf
    rw [seqNeed] at hfuel
    rw [seqND] at hd
    obtain ⟨F, rfl⟩ : ∃ F, fuel = F + 1 := ⟨fuel - 1, by omega⟩
    rw [encSeq, reflectList, List.append_assoc, List.length_cons]
    simp only [parseCount]
    rw [parse_enc F depth x (encSeq xs ++ rest) hwf.1 (by omega) (by omega)]
    dsimp only
    rw [parseCount_enc F depth xs rest hwf.2 (by omega) (by omega)]
termination_by fuel depth l rest => fuel

/-- Indefinite-map pair soundness. -/
theorem parsePairs_enc : ∀ (fuel depth : Nat)
    (l : List (PlutusData × PlutusData)) (rest : List Nat),
    wfPairs l = true → pairNeed l ≤ fuel → pairND l + depth ≤ 32 →
    parsePairs fuel depth (encPairs l ++ 255 :: rest) =
      some (reflectPairs l, rest)
  | fuel, depth, [], rest => fun _ hfuel _ => by
    rw [pairNeed] at hfuel
    obtain ⟨F, rfl⟩ : ∃ F, fuel = F + 1 := ⟨fuel - 1, by omega⟩
    rw [encPairs, reflectPairs, List.nil_append]
    simp [parsePairs]
  | fuel, depth, (k, v) :: es, rest => fun hwf hfuel hd => by
    rw [wfPairs, Bool.and_eq_true, Bool.and_eq_true, Bool.and_eq_true] at hwf
    rw [pairNeed] at hfuel
    rw [pairND] at hd
    obtain ⟨F, rfl⟩ : ∃ F, fuel = F + 1 := ⟨fuel - 1, by omega⟩
    rw [encPairs, reflectPairs, List.append_assoc, List.append_assoc]
    obtain ⟨b, t, hk, hb⟩ := encPD_head_lt k
    rw [hk, List.cons_append]
    simp only [parsePairs]
    rw [if_neg (show ¬ b = 255 by omega), ← List.cons_append, ← hk,
      parse_enc F depth k (encPD v ++ (encPairs es ++ 255 :: rest)) hwf.1.1.2
        (by omega) (by omega)]
    dsimp only
    rw [parse_enc F depth v (encPairs es ++ 255 :: rest) hwf.1.2 (by omega)
      (by omega)]
    dsimp only
    rw [parsePairs_enc F depth es rest hwf.2 (by omega) (by omega)]
termination_by fuel depth l rest => fuel

/-- Definite-map pair soundness. -/
theorem parsePairsCount_enc : ∀ (fuel depth : Nat)
    (l : List (PlutusData × PlutusData)) (rest : List Nat),
    wfPairs l = true → pairNeed l ≤ fuel → pairND l + depth ≤ 32 →
    parsePairsCount fuel depth l.length (encPairs l ++ rest) =
      some (reflectPairs l, rest)
  | fuel, depth, [], rest => fun _ hfuel _ => by
    rw [pairNeed] at hfuel
    obtain ⟨F, rfl⟩ : ∃ F, fuel = F + 1 := ⟨fuel - 1, by omega⟩
    rw [encPairs, reflectPairs, List.nil_append, List.length_nil]
    simp [parsePairsCount]
  | fuel, depth, (k, v) :: es, rest => fun hwf hfuel hd => by
    rw [wfPairs, Bool.and_eq_true, Bool.and_eq_true, Bool.and_eq_true] at hwf
    rw [pairNeed] at hfuel
    rw [pairND] at hd
    obtain ⟨F, rfl⟩ : ∃ F, fuel = F + 1 := ⟨fuel - 1, by omega⟩
    rw [encPairs, reflectPairs, List.append_assoc, List.append_assoc,
      List.length_cons]
    simp only [parsePairsCount]
    rw [parse_enc F depth k (encPD v ++ (encPairs es ++ rest)) hwf.1.1.2
      (by omega) (by omega)]
    dsimp only
    rw [parse_enc F depth v (encPairs es ++ rest) hwf.1.2 (by omega)
      (by omega)]
    dsimp only
    rw [parsePairsCount_enc F depth es rest hwf.2 (by omega) (by omega)]
termination_by fuel depth l rest => fuel
end

/-- A constructor-range tag with array content decodes by the inverse index
arithmetic, given the decoded fields. -/
theorem fromCBOR_tag_arr (i : Nat) (xs : List GoCBOR) (l : List PlutusData)
    (hi : i ≤ 64262) (hxs : fromCBORList xs = .ok l) :
    plutusDataFromCBORValue (.tag (constrTag i) (.arr xs)) =
      .ok (.constr i l) := by
  rw [plutusDataFromCBORValue, constrTag_eq i hi]
  by_cases h6 : i ≤ 6
  · rw [if_pos h6, if_pos (show 121 ≤ 121 + i ∧ 121 + i ≤ 127 by omega), hxs]
    dsimp only
    simp only [Except.ok.injEq, PlutusData.constr.injEq]
    exact ⟨by omega, trivial⟩
  · rw [if_neg h6, if_neg (show ¬ (121 ≤ 1273 + i ∧ 1273 + i ≤ 127) by omega),
      if_pos (show 1280 ≤ 1273 + i by omega), hxs]
    dsimp only
    simp only [Except.ok.injEq, PlutusData.constr.injEq]
    exact ⟨by omega, trivial⟩

mutual
/-- Converting the reflected tree back: `plutusDataFromCBORValue` undoes
`reflect` on well-formed values. -/
theorem fromCBOR_reflect : ∀ v, wellFormed v = true →
    plutusDataFromCBORValue (reflect v) = .ok v
  | .constr i fs, h => by
    rw [wellFormed, Bool.and_eq_true, Bool.and_eq_true, decide_eq_true_eq,
      decide_eq_true_eq] at h
    rw [reflect]
    exact fromCBOR_tag_arr i (reflectList fs) fs h.1.1
      (fromCBORList_reflect fs h.2)
  | .integer n, h => by
    rw [reflect]
    by_cases h1 : 0 ≤ n
    · rw [if_pos h1]
      by_cases h2 : n < 18446744073709551616
      · rw [if_pos h2, plutusDataFromCBORValue]
        simp [Int.toNat_of_nonneg h1]
      · rw [if_neg h2, plutusDataFromCBORValue]
    · rw [if_neg h1]
      by_cases h3 : -1 - n < 9223372036854775808
      · rw [if_pos h3, plutusDataFromCBORValue]
      · rw [if_neg h3, plutusDataFromCBORValue]
  | .byteString bs, _ => by rw [reflect, plutusDataFromCBORValue]
  | .list items, h => by
    rw [wellFormed, Bool.and_eq_true] at h
    rw [reflect, plutusDataFromCBORValue, fromCBORList_reflect items h.2]
  | .map entries, h => by
    rw [wellFormed, Bool.and_eq_true] at h
    rw [reflect, plutusDataFromCBORValue, fromCBORPairs_reflect entries h.2]
  | .unset, h => by
    rw [wellFormed] at h
    exact absurd h (by simp)

theorem fromCBORList_reflect : ∀ l, wfList l = true →
    fromCBORList (reflectList l) = .ok l
  | [], _ => by rw [reflectList, fromCBORList]
  | x :: xs, h => by
    rw [wfList, Bool.and_eq_true] at h
    rw [reflectList, fromCBORList, fromCBOR_reflect x h.1]
    dsimp only
    rw [fromCBORList_reflect xs h.2]

theorem fromCBORPairs_reflect : ∀ l, wfPairs l = true →
    fromCBORPairs (reflectPairs l) = .ok l
  | [], _ => by rw [reflectPairs, fromCBORPairs]
  | (k, v) :: es, h => by
    rw [wfPairs, Bool.and_eq_true, Bool.and_eq_true, Bool.and_eq_true] at h
    rw [reflectPairs, fromCBORPairs, fromCBOR_reflect k h.1.1.2]
    dsimp only
    rw [fromCBOR_reflect v h.1.2]
    dsimp only
    rw [fromCBORPairs_reflect es h.2]
end

/-- Full round trip: decoding the serialized bytes of a well-formed value
that fits the decoder's `MaxNestedLevels = 32` budget recovers the value. -/
theorem UnmarshalCBOR_encPD (v : PlutusData) (h : wellFormed v = true)
    (hd : nestDepth v ≤ 32) : UnmarshalCBOR (encPD v) = .ok v := by
  have hparse := parse_enc (2 * (encPD v).length + 2) 0 v [] h
    (by have := fuelNeed_le v; omega) (by omega)
  rw [List.append_nil] at hparse
  rw [UnmarshalCBOR, hparse]
  exact fromCBOR_reflect v h

/-- Go `case val.Content.([]interface{})`: whether a decoded value is a CBOR
array. -/
def isArrG : GoCBOR → Bool
  | .arr _ => true
  | _ => false

theorem encPairs_flatten : ∀ l : List (PlutusData × PlutusData),
    encPairs l = (l.map fun e => encPD e.1 ++ encPD e.2).flatten
  | [] => by rw [encPairs]; simp
  | (k, v) :: es => by
    rw [encPairs, encPairs_flatten es]
    simp

theorem natToBE_eval (n : Nat) (h : 0 < n) (h2 : n < 256) :
    natToBE n = [n] := by
  rw [natToBE]
  rw [dif_neg (by omega)]
  rw [show n / 256 = 0 by omega]
  rw [natToBE]
  simp [Nat.mod_eq_of_lt h2]

/-- C1, counterexample: the claim "decode(encode(v)) == v for every Plutus
Data value" fails at `Constructor(64263, [])`: its computed tag is `65536`,
the two-byte header emits only the low 16 bits (`d9 00 00`, i.e. tag 0), and
decoding that reports `unsupported CBOR tag: 0` instead of returning the
value.  The final three conjuncts add the map-order evidence: the library
hands a decoded two-entry map to `plutusDataFromCBORValue` as a Go
`map[interface{}]interface{}`, whose `range` order is unspecified, and the
entry loop succeeds on either order — yet the two orders re-encode to
different bytes, so for maps with two or more entries even a successful
decode need not reproduce the original value or its bytes. -/
theorem C1_counterexample :
    toCBORBytes (.constr 64263 []) = .ok [0xd9, 0x00, 0x00, 0x80] ∧
    UnmarshalCBOR [0xd9, 0x00, 0x00, 0x80] = .error (.unsupportedTag 0) ∧
    UnmarshalCBOR [0xd9, 0x00, 0x00, 0x80] ≠ .ok (.constr 64263 []) ∧
    fromCBORPairs [(.bytes [1], .bytes [2]), (.bytes [3], .bytes [4])] =
      .ok [((.byteString [1] : PlutusData), (.byteString [2] : PlutusData)),
        (.byteString [3], .byteString [4])] ∧
    fromCBORPairs [(.bytes [3], .bytes [4]), (.bytes [1], .bytes [2])] =
      .ok [((.byteString [3] : PlutusData), (.byteString [4] : PlutusData)),
        (.byteString [1], .byteString [2])] ∧
    toCBORBytes (.map [(.byteString [1], .byteString [2]),
        (.byteString [3], .byteString [4])]) ≠
      toCBORBytes (.map [(.byteString [3], .byteString [4]),
        (.byteString [1], .byteString [2])]) := by
  have hcount : parseCount 8 2 0 ([] : List Nat) = some ([], []) := by
    simp [parseCount]
  have hinner : parseVal 9 1 [128] = some (.arr [], []) :=
    parseVal_step4_def 8 1 128 [] 0 [] [] [] (by norm_num) (by norm_num)
      (by omega) (by norm_num) (by norm_num [readArg]) hcount
  have hp : parseVal 10 0 [0xd9, 0x00, 0x00, 0x80] =
      some (.tag 0 (.arr []), []) :=
    parseVal_step6 9 0 0xd9 [0, 0, 128] 0 [128] (.arr []) [] (by norm_num)
      (by norm_num [readArg]) (by omega) hinner (by omega) (by omega)
  have hdec : UnmarshalCBOR [0xd9, 0x00, 0x00, 0x80] =
      .error (.unsupportedTag 0) := by
    rw [UnmarshalCBOR]
    norm_num
    rw [hp]
    dsimp only
    rw [plutusDataFromCBORValue.eq_def]
    norm_num
  refine ⟨?_, hdec, ?_, ?_, ?_, ?_⟩
  · rw [toCBORBytes_ok]
    simp [encPD, constrTag, constrTagHeader]
  · rw [hdec]
    intro h
    exact Except.noConfusion h
  · simp [fromCBORPairs, plutusDataFromCBORValue]
  · simp [fromCBORPairs, plutusDataFromCBORValue]
  · rw [toCBORBytes_ok, toCBORBytes_ok]
    simp [encPD, encPairs, encByteStr, encUIntHead]

/-- C1, amended: for every well-formed value — exactly one variant set,
constructor indexes at most 64262 (so the computed tag fits the two-byte
header), byte strings of genuine bytes, lists and field lists of at most
131072 elements with nesting within the decoder's default 32-level budget
(each constructor costs two levels, so at most 16 nested constructors), and
maps with at most one entry whose keys are integers or byte strings (Go map
iteration makes larger maps decode in unspecified entry order, and
non-scalar keys are unhashable) — encoding always succeeds and decoding the
encoding returns the value itself; re-encoding that result therefore
reproduces the identical byte string. -/
theorem C1_roundtrip (v : PlutusData) (h : wellFormed v = true)
    (hd : nestDepth v ≤ 32) :
    MarshalCBOR v = .ok (encPD v) ∧ UnmarshalCBOR (encPD v) = .ok v :=
  ⟨toCBORBytes_ok v, UnmarshalCBOR_encPD v h hd⟩

theorem C1_roundtrip_witness :
    MarshalCBOR (.constr 1 [.integer 5, .byteString [0xde, 0xad]]) =
      .ok (encPD (.constr 1 [.integer 5, .byteString [0xde, 0xad]])) ∧
    UnmarshalCBOR (encPD (.constr 1 [.integer 5, .byteString [0xde, 0xad]])) =
      .ok (.constr 1 [.integer 5, .byteString [0xde, 0xad]]) :=
  C1_roundtrip _ (by
    simp only [wellFormed, wfList, Bool.and_eq_true, decide_eq_true_eq,
      List.all_cons, List.all_nil, Bool.and_true]
    norm_num
    rw [show Int.toNat 5 = 5 from rfl, natToBE_eval 5 (by omega) (by omega)]
    norm_num)
    (by norm_num [nestDepth, seqND])

/-- C2: contrary to the specified empty-list framing, `toCBORBytes` emits the
indefinite-length framing `9f ff` for the empty `List` value — the
definite-length `0x80` special case exists only for empty constructor fields
and the `0xa0` case for empty maps.  The non-empty example holds as
specified. -/
theorem C2_empty_list_bytes :
    toCBORBytes (.list []) = .ok [0x9f, 0xff] ∧
    toCBORBytes (.list [.integer 1]) = .ok [0x9f, 0x01, 0xff] ∧
    ([0x9f, 0xff] : List Nat) ≠ [0x80] := by
  refine ⟨?_, ?_, by simp⟩
  · rw [toCBORBytes_ok]
    simp [encPD, encSeq]
  · rw [toCBORBytes_ok]
    simp [encPD, encSeq, encBigInt, encUIntHead]

/-- C3, counterexample: at index 64264 the computed tag is
`1280 + (64264 - 7) = 65537`, but the emitted header is `d9 00 01` — wire tag
1, as the decoder's own error report shows — so the emitted tag does not
equal `1280 + (index - 7)` for every index. -/
theorem C3_counterexample :
    toCBORBytes (.constr 64264 []) = .ok [0xd9, 0x00, 0x01, 0x80] ∧
    UnmarshalCBOR [0xd9, 0x00, 0x01, 0x80] = .error (.unsupportedTag 1) ∧
    1280 + (64264 - 7) ≠ 1 := by
  have hcount : parseCount 8 2 0 ([] : List Nat) = some ([], []) := by
    simp [parseCount]
  have hinner : parseVal 9 1 [128] = some (.arr [], []) :=
    parseVal_step4_def 8 1 128 [] 0 [] [] [] (by norm_num) (by norm_num)
      (by omega) (by norm_num) (by norm_num [readArg]) hcount
  have hp : parseVal 10 0 [0xd9, 0x00, 0x01, 0x80] =
      some (.tag 1 (.arr []), []) :=
    parseVal_step6 9 0 0xd9 [0, 1, 128] 1 [128] (.arr []) [] (by norm_num)
      (by norm_num [readArg]) (by omega) hinner (by omega) (by omega)
  refine ⟨?_, ?_, by omega⟩
  · rw [toCBORBytes_ok]
    simp [encPD, constrTag, constrTagHeader]
  · rw [UnmarshalCBOR]
    norm_num
    rw [hp]
    dsimp only
    rw [plutusDataFromCBORValue.eq_def]
    norm_num

/-- C3, amended: for indexes up to 64262 the emitted tag is `121 + index`
(indexes 0–6) or `1280 + (index - 7)` (indexes 7–64262), the fields follow as
`0x80` when empty and as an indefinite-length array otherwise, the concrete
vectors `d8 79 80` and `d8 7a 80` hold, and `encode(Constructor(10, []))`
decodes back to index 10; for larger indexes the two-byte header truncates
the tag (see the counterexample). -/
theorem C3_amended :
    (∀ i fs, i ≤ 64262 →
      toCBORBytes (.constr i fs) =
        .ok (constrTagHeader (if i ≤ 6 then 121 + i else 1280 + (i - 7)) ++
          (if fs.isEmpty then [0x80] else 0x9f :: encSeq fs ++ [0xff]))) ∧
    toCBORBytes (.constr 0 []) = .ok [0xd8, 0x79, 0x80] ∧
    toCBORBytes (.constr 1 []) = .ok [0xd8, 0x7a, 0x80] ∧
    UnmarshalCBOR (encPD (.constr 10 [])) = .ok (.constr 10 []) := by
  refine ⟨?_, ?_, ?_, ?_⟩
  · intro i fs hi
    rw [toCBORBytes_ok, encPD, constrTag_eq i hi]
    have harith : (if i ≤ 6 then 121 + i else 1273 + i) =
        (if i ≤ 6 then 121 + i else 1280 + (i - 7)) := by
      split_ifs with h <;> omega
    rw [harith]
  · rw [toCBORBytes_ok]
    simp [encPD, constrTag, constrTagHeader]
  · rw [toCBORBytes_ok]
    simp [encPD, constrTag, constrTagHeader]
  · exact UnmarshalCBOR_encPD _ (by simp [wellFormed, wfList])
      (by norm_num [nestDepth, seqND])

theorem C3_amended_witness :
    toCBORBytes (.constr 8 []) =
      .ok (constrTagHeader (if 8 ≤ 6 then 121 + 8 else 1280 + (8 - 7)) ++
        (if ([] : List PlutusData).isEmpty then [0x80]
         else 0x9f :: encSeq [] ++ [0xff])) :=
  C3_amended.1 8 [] (by omega)

/-- C4, counterexample: at index 70000 the computed tag is 71273, whose
minimal-width CBOR head is the four-byte form starting `0xda`, yet the
encoder emits the two-byte `0xd9` header holding only the low 16 bits — an
incorrect header, so minimal-width emission does not hold for every index. -/
theorem C4_counterexample :
    toCBORBytes (.constr 70000 []) = .ok [0xd9, 0x16, 0x69, 0x80] ∧
    constrTag 70000 = 71273 ∧
    constrTagHeader 71273 ≠ encUIntHead 6 71273 := by
  refine ⟨?_, by norm_num [constrTag], by norm_num [constrTagHeader, encUIntHead]⟩
  rw [toCBORBytes_ok]
  simp [encPD, constrTag, constrTagHeader]

/-- C4, amended: whenever the computed tag fits 16 bits the inline header is
exactly the minimal-width CBOR head of the tag — one major-type-6 byte below
24, `0xd8` plus one byte below 256, `0xd9` plus two big-endian bytes below
65536; for larger computed tags the emitted `0xd9` header is truncated and
incorrect (see the counterexample). -/
theorem C4_minimal_header (i : Nat) (h : constrTag i < 65536) :
    constrTagHeader (constrTag i) = encUIntHead 6 (constrTag i) ∧
    (constrTag i < 24 →
      constrTagHeader (constrTag i) = [0xc0 + constrTag i]) ∧
    (24 ≤ constrTag i → constrTag i < 256 →
      constrTagHeader (constrTag i) = [0xd8, constrTag i]) ∧
    (256 ≤ constrTag i →
      constrTagHeader (constrTag i) =
        [0xd9, constrTag i / 256, constrTag i % 256]) := by
  generalize constrTag i = t at h ⊢
  refine ⟨?_, fun ha => ?_, fun ha hb => ?_, fun ha => ?_⟩
  · unfold constrTagHeader encUIntHead
    split_ifs <;>
      first
        | rfl
        | (exfalso; omega)
        | (simp only [List.cons.injEq]
           and_intros <;> first | omega | trivial)
  · unfold constrTagHeader
    rw [if_pos ha]
  · unfold constrTagHeader
    rw [if_neg (by omega), if_pos hb]
  · unfold constrTagHeader
    rw [if_neg (by omega), if_neg (by omega)]
    simp only [List.cons.injEq]
    and_intros <;> first | omega | trivial

theorem C4_minimal_header_witness :
    constrTagHeader (constrTag 0) = encUIntHead 6 (constrTag 0) :=
  (C4_minimal_header 0 (by norm_num [constrTag])).1

/-- C5: a `Map` value encodes as the single byte `0xa0` when empty, and
otherwise as an indefinite-length CBOR map `0xbf … 0xff` whose body is the
concatenation of key-then-value encodings of the entries exactly in stored
order — no sorting. -/
theorem C5_map_encoding (entries : List (PlutusData × PlutusData)) :
    toCBORBytes (.map entries) =
      .ok (if entries.isEmpty then [0xa0]
        else 0xbf :: (entries.map fun e => encPD e.1 ++ encPD e.2).flatten
          ++ [0xff]) := by
  rw [toCBORBytes_ok, encPD, encPairs_flatten]

/-- Parsing a constructor with definite-length array content: never produced
by the encoder, accepted by the decoder within its default input limits. -/
theorem parse_constr_def (i : Nat) (fs : List PlutusData) (fuel : Nat)
    (hi : i ≤ 64262) (hfs : wfList fs = true)
    (hflen : fs.length ≤ 131072) (hnd : seqND fs ≤ 30)
    (hfuel : seqNeed fs ≤ fuel) :
    parseVal (fuel + 2) 0 (constrTagHeader (constrTag i) ++
      (encUIntHead 4 fs.length ++ encSeq fs)) =
      some (.tag (constrTag i) (.arr (reflectList fs)), []) := by
  obtain ⟨ht1, ht2⟩ := constrTag_range i hi
  obtain ⟨b2, bs2, heq2, hdiv2, hlt2, hread2⟩ :=
    encUIntHead_readArg 4 fs.length (by omega) (by omega) (encSeq fs)
  obtain ⟨b, tl, heq, hdiv, hread⟩ :=
    constrTagHeader_parse (constrTag i) ht1 ht2
      (encUIntHead 4 fs.length ++ encSeq fs)
  have hc := parseCount_enc fuel 2 fs [] hfs hfuel (by omega)
  rw [List.append_nil] at hc
  have hinner : parseVal (fuel + 1) 1 (b2 :: bs2) =
      some (.arr (reflectList fs), []) :=
    parseVal_step4_def fuel 1 b2 bs2 fs.length (encSeq fs) (reflectList fs)
      [] hdiv2 (by omega) (by omega) (by omega) hread2 hc
  rw [← heq2] at hinner
  rw [heq]
  exact parseVal_step6 (fuel + 1) 0 b tl (constrTag i) _ _ [] hdiv hread
    (by omega) hinner (by omega) (by omega)

/-- Parsing a constructor with indefinite-length array content, the framing
the encoder itself produces for non-empty fields. -/
theorem parse_constr_indef (i : Nat) (fs : List PlutusData) (fuel : Nat)
    (hi : i ≤ 64262) (hfs : wfList fs = true)
    (hflen : fs.length ≤ 131072) (hnd : seqND fs ≤ 30)
    (hfuel : seqNeed fs ≤ fuel) :
    parseVal (fuel + 2) 0 (constrTagHeader (constrTag i) ++
      (0x9f :: (encSeq fs ++ [0xff]))) =
      some (.tag (constrTag i) (.arr (reflectList fs)), []) := by
  obtain ⟨ht1, ht2⟩ := constrTag_range i hi
  obtain ⟨b, tl, heq, hdiv, hread⟩ :=
    constrTagHeader_parse (constrTag i) ht1 ht2
      (0x9f :: (encSeq fs ++ [0xff]))
  have hitems := parseItems_enc fuel 2 fs [] hfs hfuel (by omega)
  have hinner := parseVal_step4_indef fuel 1 _ _ _ (by omega) hitems
    (by rw [reflectList_length]; omega)
  rw [heq]
  exact parseVal_step6 (fuel + 1) 0 b tl (constrTag i) _ _ [] hdiv hread
    (by omega) hinner (by omega) (by omega)

/-- C6: a tag below 1280 and outside 121–127 is rejected as
`unsupported CBOR tag`; a constructor-range tag whose content is not an
array is rejected as `constructor content is not an array`; and for
constructor content that is an array — within the library's default input
limits: at most 131072 field elements and field nesting within the 32-level
budget left under the tag and its array — definite-length and
indefinite-length framings both decode, to the same constructor value. -/
theorem C6_decode_errors :
    (∀ num content, num < 1280 → (num < 121 ∨ 127 < num) →
      plutusDataFromCBORValue (.tag num content) =
        .error (.unsupportedTag num)) ∧
    (∀ num content, ((121 ≤ num ∧ num ≤ 127) ∨ 1280 ≤ num) →
      isArrG content = false →
      plutusDataFromCBORValue (.tag num content) =
        .error .malformedConstructor) ∧
    (∀ i fs, i ≤ 64262 → wfList fs = true →
      fs.length ≤ 131072 → seqND fs ≤ 30 →
      UnmarshalCBOR (constrTagHeader (constrTag i) ++
        (encUIntHead 4 fs.length ++ encSeq fs)) = .ok (.constr i fs) ∧
      UnmarshalCBOR (constrTagHeader (constrTag i) ++
        (0x9f :: (encSeq fs ++ [0xff]))) = .ok (.constr i fs)) := by
  refine ⟨?_, ?_, ?_⟩
  · intro num content h1 h2
    rw [plutusDataFromCBORValue.eq_def]
    dsimp only
    rw [if_neg (by omega), if_neg (by omega)]
  · intro num content hrange harr
    rw [plutusDataFromCBORValue.eq_def]
    dsimp only
    rcases hrange with h | h
    · rw [if_pos h]
      cases content <;> simp_all [isArrG]
    · by_cases h127 : 121 ≤ num ∧ num ≤ 127
      · rw [if_pos h127]
        cases content <;> simp_all [isArrG]
      · rw [if_neg h127, if_pos h]
        cases content <;> simp_all [isArrG]
  · intro i fs hi hfs hflen hnd
    constructor
    · rw [UnmarshalCBOR]
      have hwide : seqNeed fs ≤ 2 * (constrTagHeader (constrTag i) ++
          (encUIntHead 4 fs.length ++ encSeq fs)).length := by
        have h1 := seqNeed_le fs
        have h2 := constrTagHeader_length_pos (constrTag i)
        have h3 := encUIntHead_length_pos 4 fs.length
        simp only [List.length_append]
        omega
      rw [parse_constr_def i fs _ hi hfs hflen hnd hwide]
      exact fromCBOR_tag_arr i (reflectList fs) fs hi
        (fromCBORList_reflect fs hfs)
    · rw [UnmarshalCBOR]
      have hwide : seqNeed fs ≤ 2 * (constrTagHeader (constrTag i) ++
          (0x9f :: (encSeq fs ++ [0xff]))).length := by
        have h1 := seqNeed_le fs
        have h2 := constrTagHeader_length_pos (constrTag i)
        simp only [List.length_append, List.length_cons]
        omega
      rw [parse_constr_indef i fs _ hi hfs hflen hnd hwide]
      exact fromCBOR_tag_arr i (reflectList fs) fs hi
        (fromCBORList_reflect fs hfs)

theorem C6_decode_errors_witness :
    plutusDataFromCBORValue (.tag 5 .null) = .error (.unsupportedTag 5) ∧
    plutusDataFromCBORValue (.tag 121 .null) = .error .malformedConstructor ∧
    UnmarshalCBOR (constrTagHeader (constrTag 0) ++
      (encUIntHead 4 (1 : Nat) ++ encSeq [.integer 7])) =
      .ok (.constr 0 [.integer 7]) :=
  ⟨C6_decode_errors.1 5 .null (by omega) (by omega),
   C6_decode_errors.2.1 121 .null (by omega) rfl,
   by
    have h := (C6_decode_errors.2.2 0 [.integer 7] (by omega)
      (by
        simp only [wellFormed, wfList, Bool.and_eq_true, decide_eq_true_eq,
          Bool.and_true]
        norm_num
        rw [show Int.toNat 7 = 7 from rfl,
          natToBE_eval 7 (by omega) (by omega)]
        norm_num) (by norm_num)
      (by norm_num [seqND, nestDepth])).1
    simpa using h⟩

/-- C7: a CBOR `null` decodes to the unit value `Constructor(0, [])`, both at
the value level and from the single byte `f6`, while no `PlutusData` value —
the zero value included — ever encodes to the byte `f6` (every encoding
starts with a byte below `0xf6`). -/
theorem C7_null_decode :
    plutusDataFromCBORValue .null = .ok (.constr 0 []) ∧
    UnmarshalCBOR [0xf6] = .ok (.constr 0 []) ∧
    ∀ v, toCBORBytes v ≠ .ok [0xf6] := by
  refine ⟨by rw [plutusDataFromCBORValue], ?_, ?_⟩
  · rw [UnmarshalCBOR]
    have hp : parseVal (2 * [(0xf6 : Nat)].length + 2) 0 [0xf6] =
        some (.null, []) := by norm_num [parseVal]
    rw [hp]
    dsimp only
    rw [plutusDataFromCBORValue]
  · intro v h
    rw [toCBORBytes_ok] at h
    obtain ⟨b, t, hx, hb⟩ := encPD_head_lt v
    simp only [Except.ok.injEq] at h
    rw [hx] at h
    simp only [List.cons.injEq] at h
    omega

theorem C7_null_decode_witness :
    toCBORBytes (.integer 0) ≠ .ok [0xf6] :=
  C7_null_decode.2.2 (.integer 0)

/-- C10: encoding is total — `MarshalCBOR` returns bytes (never an error) for
every value, including the zero value with no variant set, which encodes as
`d8 79 9f ff` — and consequently `Equals` is reflexive. -/
theorem C10_total :
    (∀ v, MarshalCBOR v = .ok (encPD v)) ∧
    MarshalCBOR .unset = .ok [0xd8, 0x79, 0x9f, 0xff] ∧
    ∀ v, Equals v v = true := by
  refine ⟨fun v => toCBORBytes_ok v, ?_, fun v => ?_⟩
  · rw [MarshalCBOR, toCBORBytes_ok, encPD]
  · simp [Equals, toCBORBytes_ok]

/-- The `Schema` struct of `schema.go`, restricted to the fields the verified
predicates read: `Ref`, `Title`, `DataType`, `Index`, `Fields`, `AnyOf`
(`Description`, `Items`, `Keys`, `Values` are carried by the Go struct but
never inspected by `RefName` or `IsBoolean`). -/
inductive Schema : Type where
  | mk (ref : String) (title : String) (dataType : String)
      (index : Option Int) (fields : List Schema) (anyOf : List Schema)

def Schema.ref : Schema → String
  | .mk r _ _ _ _ _ => r

def Schema.title : Schema → String
  | .mk _ t _ _ _ _ => t

def Schema.dataType : Schema → String
  | .mk _ _ d _ _ _ => d

def Schema.fields : Schema → List Schema
  | .mk _ _ _ _ f _ => f

def Schema.anyOf : Schema → List Schema
  | .mk _ _ _ _ _ a => a

/-- `IsRef` of `schema.go`: `s.Ref != ""`. -/
def Schema.IsRef (s : Schema) : Bool :=
  decide (s.ref ≠ "")

/-- `strings.TrimPrefix` over character lists: drop the pattern when it
heads the string, otherwise return the string unchanged. -/
def trimHead (pat s : List Char) : List Char :=
  if pat.isPrefixOf s then s.drop pat.length else s

/-- `strings.ReplaceAll` over character lists for a non-empty pattern:
left-to-right, non-overlapping (`RefName` only calls it with the
two-character patterns `~1` and `~0`).  The fuel is the subject length,
sufficient because every step consumes at least one character. -/
def repAllAux : Nat → List Char → List Char → List Char → List Char
  | 0, _, _, s => s
  | _ + 1, _, _, [] => []
  | fuel + 1, pat, rep, c :: rest =>
    if pat ≠ [] ∧ pat.isPrefixOf (c :: rest) then
      rep ++ repAllAux fuel pat rep ((c :: rest).drop pat.length)
    else c :: repAllAux fuel pat rep rest

def repAll (pat rep s : List Char) : List Char :=
  repAllAux s.length pat rep s

/-- `RefName` of `schema.go`: empty for a non-reference, otherwise strip the
`#/definitions/` head and undo the JSON Pointer escapes, `~1` to `/` first,
then `~0` to `~`. -/
def Schema.RefName (s : Schema) : String :=
  if s.ref = "" then ""
  else
    String.mk (repAll "~0".data "~".data
      (repAll "~1".data "/".data
        (trimHead "#/definitions/".data s.ref.data)))

/-- `IsBoolean` of `schema.go`: exactly two `anyOf` variants whose titles
are `False` then `True`; field counts and data types are not inspected. -/
def Schema.IsBoolean (s : Schema) : Bool :=
  match s.anyOf with
  | [a, b] => a.title == "False" && b.title == "True"
  | _ => false

/-- A two-variant union titled `False`/`True` whose `False` variant carries
one field. -/
def boolLikeWithField : Schema :=
  .mk "" "" "" none []
    [.mk "" "False" "constructor" (some 0) [.mk "" "" "integer" none [] []] [],
     .mk "" "True" "constructor" (some 1) [] []]

/-- C8, counterexample: `IsBoolean` accepts a `False`/`True` union whose
first variant has one field, so "returns false for any union that has a
variant with one or more fields" does not hold. -/
theorem C8_counterexample :
    Schema.IsBoolean boolLikeWithField = true ∧
    (boolLikeWithField.anyOf.map fun c => c.fields.length) = [1, 0] := by
  exact ⟨by decide, by decide⟩

/-- C8, amended: `IsBoolean` returns true exactly for schemas whose `anyOf`
has precisely two variants titled `False` and `True` in that order; the
variants' field lists and data types are not checked. -/
theorem C8_amended (s : Schema) :
    s.IsBoolean = true ↔
      ∃ a b, s.anyOf = [a, b] ∧ a.title = "False" ∧ b.title = "True" := by
  cases s with
  | mk r t d i f any =>
    simp only [Schema.IsBoolean, Schema.anyOf]
    rcases any with _ | ⟨a, _ | ⟨b, _ | ⟨c, rest⟩⟩⟩
    · constructor
      · intro h
        exact absurd h (by simp)
      · rintro ⟨a', b', heq, -, -⟩
        exact absurd heq (by simp)
    · constructor
      · intro h
        exact absurd h (by simp)
      · rintro ⟨a', b', heq, -, -⟩
        simp only [List.cons.injEq] at heq
        exact absurd heq.2 (by simp)
    · rw [Bool.and_eq_true, beq_iff_eq, beq_iff_eq]
      constructor
      · rintro ⟨h1, h2⟩
        exact ⟨a, b, rfl, h1, h2⟩
      · rintro ⟨a', b', heq, h1, h2⟩
        simp only [List.cons.injEq, and_true] at heq
        obtain ⟨ha, hb⟩ := heq
        subst ha
        subst hb
        exact ⟨h1, h2⟩
    · constructor
      · intro h
        exact absurd h (by simp)
      · rintro ⟨a', b', heq, -, -⟩
        simp only [List.cons.injEq] at heq
        exact absurd heq.2.2 (by simp)

theorem C8_amended_witness :
    Schema.IsBoolean
      (.mk "" "" "" none []
        [.mk "" "False" "" none [] [], .mk "" "True" "" none [] []]) = true :=
  (C8_amended _).mpr ⟨_, _, rfl, rfl, rfl⟩

theorem isPre_append (l n : List Char) : l.isPrefixOf (l ++ n) = true := by
  induction l with
  | nil => cases n <;> rfl
  | cons c cs ih =>
    show ((c == c) && cs.isPrefixOf (cs ++ n)) = true
    simp [ih]

/-- C9: for a reference of the form `#/definitions/<escaped-name>`,
`RefName` strips the head and performs the JSON Pointer unescaping (every
`~1` becomes `/`, then every `~0` becomes `~`); the worked example holds,
and a non-reference schema yields the empty string. -/
theorem C9_refName :
    (∀ (s : Schema) (n : List Char),
      s.ref = String.mk ("#/definitions/".data ++ n) →
      s.RefName = String.mk (repAll "~0".data "~".data
        (repAll "~1".data "/".data n))) ∧
    Schema.RefName
      (.mk "#/definitions/cardano~1assets~1PolicyId" "" "" none [] []) =
      "cardano/assets/PolicyId" ∧
    (∀ s : Schema, s.ref = "" → s.RefName = "") := by
  refine ⟨?_, by decide, ?_⟩
  · intro s n h
    rw [Schema.RefName, h]
    rw [if_neg (by
      intro hc
      have hdata := congrArg String.data hc
      simp at hdata)]
    have hdrop : trimHead "#/definitions/".data
        (String.mk ("#/definitions/".data ++ n)).data = n := by
      show trimHead "#/definitions/".data ("#/definitions/".data ++ n) = n
      rw [trimHead, if_pos (isPre_append _ _), List.drop_left]
    rw [hdrop]
  · intro s h
    rw [Schema.RefName, if_pos h]

theorem C9_refName_witness :
    Schema.RefName (.mk "#/definitions/a~1b~0c" "" "" none [] []) = "a/b~c" ∧
    Schema.RefName (.mk "" "" "" none [] []) = "" := by
  constructor
  · have h := C9_refName.1 (.mk "#/definitions/a~1b~0c" "" "" none [] [])
      ("a~1b~0c".data) (by decide)
    exact h.trans (by decide)
  · exact C9_refName.2.2 _ rfl
